import Mathlib

/- Verification of the i3 configuration parser core (src/config_parser.c).

   The parser is shallowly embedded: the captured-value stack, the state
   trail, the per-token lexer primitives, the transition function and the
   main driver loop are translated into executable Lean definitions.  The
   generated grammar tables (GENERATED_config_tokens.h / _call.h) are not
   part of the repository source, so the grammar is a parameter; the
   invariants the spec states for the generated tables appear as explicit
   hypotheses. -/

/-- The NUL byte that terminates a C string; reads past the end of the
input are modelled as reading this byte. -/
def nulChar : Char := Char.ofNat 0

/-- The apostrophe byte (code point 39): literal token descriptors have
names that start with it (config_parser.c:363). -/
def apos : Char := Char.ofNat 39

/-- The apostrophe as a one-byte string. -/
def aposStr : String := String.mk [apos]

/-- Identifier under which a matched token value is captured. -/
abbrev Ident := String

/-- Value of a captured-value stack entry: the C union val tagged by
type (STACK_STR / STACK_LONG) at config_parser.c:85-92. -/
inductive CVal where
  | str (s : String)
  | num (n : Int)
deriving DecidableEq

/-- Reading val.str of an entry (C returns a char pointer; reading the
union member of a STACK_LONG entry is undefined behaviour in C and is
modelled as none). -/
def CVal.asStr : CVal → Option String
  | .str s => some s
  | .num _ => none

/-- Reading val.num of an entry; reading the union member of a STACK_STR
entry is undefined behaviour in C and is modelled as 0 (the same value
get_long returns for an absent identifier). -/
def CVal.asNum : CVal → Int
  | .num n => n
  | .str _ => 0

/-- One occupied slot of the captured-value stack (struct stack_entry,
config_parser.c:82-93). -/
structure StackEntry where
  identifier : Ident
  val : CVal
deriving DecidableEq

/-- The 10-slot captured-value stack (config_parser.c:96).  A slot whose
C identifier pointer is NULL (unused) is modelled as none. -/
abbrev Stack := List (Option StackEntry)

/-- push_string (config_parser.c:103-129): scan the slots in order,
skipping occupied slots with a different identifier; store into the
first free slot, or append with a comma to the slot already holding the
identifier.  none models the fatal exit(1) when all 10 slots are
occupied by other identifiers (and the C-undefined union read of
val.str on a STACK_LONG entry). -/
def push_string : Stack → Ident → String → Option Stack
  | [], _, _ => none
  | some e :: rest, id, s =>
    if e.identifier ≠ id then
      (push_string rest id s).map (fun r => some e :: r)
    else
      match e.val with
      | .str old => some (some ⟨e.identifier, .str (old ++ "," ++ s)⟩ :: rest)
      | .num _ => none
  | none :: rest, id, s => some (some ⟨id, .str s⟩ :: rest)

/-- push_long (config_parser.c:131-150): scan the slots in order and
store into the first free slot; unlike push_string there is no check
whether the identifier is already present.  none models the fatal
exit(1) on a full stack. -/
def push_long : Stack → Ident → Int → Option Stack
  | [], _, _ => none
  | some e :: rest, id, v => (push_long rest id v).map (fun r => some e :: r)
  | none :: rest, id, v => some (some ⟨id, .num v⟩ :: rest)

/-- get_string (config_parser.c:152-160): scan slots in order, stopping
at the first slot whose identifier is NULL; return the value of the
first slot holding the identifier, NULL (none) when absent. -/
def get_string : Stack → Ident → Option String
  | [], _ => none
  | none :: _, _ => none
  | some e :: rest, id =>
    if e.identifier = id then e.val.asStr else get_string rest id

/-- get_long (config_parser.c:162-170): like get_string but returns 0
when the identifier is absent. -/
def get_long : Stack → Ident → Int
  | [], _ => 0
  | none :: _, _ => 0
  | some e :: rest, id =>
    if e.identifier = id then e.val.asNum else get_long rest id

/-- clear_stack (config_parser.c:172-180): release every entry and reset
all 10 slots to unused. -/
def clear_stack (_st : Stack) : Stack := List.replicate 10 none

/-- True when every slot of the stack is unused. -/
def stackAllClear (st : Stack) : Bool := st.all fun sl => sl = none

/-- True when the occupied slots form a contiguous prefix (no occupied
slot after a free one). -/
def stackContig : Stack → Bool
  | [] => true
  | some _ :: rest => stackContig rest
  | none :: rest => rest.all fun sl => sl = none

/-- True when some slot holds the identifier. -/
def stackHasId (st : Stack) (id : Ident) : Bool :=
  st.any fun sl =>
    match sl with
    | some e => e.identifier = id
    | none => false

/-- Number of slots holding the identifier. -/
def stackCountId (st : Stack) (id : Ident) : Nat :=
  st.countP fun sl =>
    match sl with
    | some e => decide (e.identifier = id)
    | none => false

/-- Number of free slots. -/
def stackFreeCount (st : Stack) : Nat :=
  st.countP fun sl => sl.isNone

/-- Reference lookup for the comparison in C10: scans the whole stack
without stopping at the first free slot. -/
def get_string_full : Stack → Ident → Option String
  | [], _ => none
  | none :: rest, id => get_string_full rest id
  | some e :: rest, id =>
    if e.identifier = id then e.val.asStr else get_string_full rest id

/-- Reference lookup for the comparison in C10: get_long without the
early stop at the first free slot. -/
def get_long_full : Stack → Ident → Int
  | [], _ => 0
  | none :: rest, id => get_long_full rest id
  | some e :: rest, id =>
    if e.identifier = id then e.val.asNum else get_long_full rest id

/-- States are the generated cmdp_state enumeration, modelled as numbers;
INITIAL is the distinguished start state. -/
abbrev INITIAL : Nat := 0

/-- A token descriptor (struct token, config_parser.c:60-68).
next_state = none models the __CALL sentinel, in which case
call_identifier selects the handler. -/
structure CmdpToken where
  name : String
  identifier : Option Ident := none
  next_state : Option Nat
  call_identifier : Nat := 0
deriving DecidableEq

/-- Modelled from the spec: the generated grammar tables and handler
dispatch (GENERATED_config_tokens.h, GENERATED_config_call.h and the
handlers behind GENERATED_call are generated code absent from src/).
tokens maps each state to its ordered token-descriptor list; call maps
a call identifier and the captured-value stack to the handler's
returned next state (spec section 4.3: the handler is passed a read-only
view of the stack and returns a next_state override). -/
structure Grammar where
  tokens : Nat → List CmdpToken
  call : Nat → Stack → Nat

/-- Trail update inside next_state (config_parser.c:267-277): the trail
is modelled by its live prefix statelist[0..statelist_idx).  If the new
state already occurs at position i the length is truncated to i+1,
otherwise the state is appended (the C code writes at statelist_idx with
no capacity check). -/
def update_statelist (l : List Nat) (ns : Nat) : List Nat :=
  match l.findIdx? (fun s => s = ns) with
  | some i => l.take (i + 1)
  | none => l ++ [ns]

/-- The mutable parser state threaded through next_state: current state,
captured-value stack, and state trail. -/
structure PState where
  state : Nat
  stack : Stack
  statelist : List Nat
deriving DecidableEq

/-- next_state (config_parser.c:250-278): on a __CALL token the handler
runs on the current stack and the stack is cleared; the stack is cleared
again on committing INITIAL; finally the trail is updated. -/
def next_state (G : Grammar) (tok : CmdpToken) (ps : PState) : PState :=
  match tok.next_state with
  | some s =>
    { state := s
      stack := if s = INITIAL then clear_stack ps.stack else ps.stack
      statelist := update_statelist ps.statelist s }
  | none =>
    let s := G.call tok.call_identifier ps.stack
    let st1 := clear_stack ps.stack
    { state := s
      stack := if s = INITIAL then clear_stack st1 else st1
      statelist := update_statelist ps.statelist s }

/-- One entry of the Expected-one-of error message
(config_parser.c:492-517): a literal (name[0] is an apostrophe) is
copied enclosed in single quotes without its leading apostrophe, an
error descriptor is skipped entirely (continue, which also skips the
separator), any other name is enclosed in angle brackets; the separator
", " follows every entry whose position is not the last of the
descriptor list. -/
def token_piece (n c : Nat) (t : CmdpToken) : String :=
  if t.name.toList.headD nulChar = apos then
    aposStr ++ String.mk (t.name.toList.drop 1) ++ aposStr ++
      (if c < n - 1 then ", " else "")
  else if t.name = "error" then ""
  else "<" ++ t.name ++ ">" ++ (if c < n - 1 then ", " else "")

/-- The possible_tokens string built by the error reporter
(config_parser.c:490-518). -/
def possible_tokens (ts : List CmdpToken) : String :=
  String.join (ts.enum.map fun p => token_piece ts.length p.1 p.2)

/-- The human-readable error message (config_parser.c:519-520). -/
def errormessage (ts : List CmdpToken) : String :=
  "Expected one of these tokens: " ++ possible_tokens ts

/-- Byte at offset i of the input; the terminating NUL (and anything
past it) reads as NUL.  The input list models the bytes of the C string
and therefore contains no NUL byte. -/
def charAt (input : List Char) (i : Nat) : Char := input.getD i nulChar

/-- Whitespace skipping at the top of the main loop
(config_parser.c:352-353): advance over spaces and tabs (the NUL guard
of the C condition is subsumed: NUL is neither). -/
def skipWS (input : List Char) (off : Nat) : Nat :=
  off + ((input.drop off).takeWhile fun c => c == ' ' || c == '\t').length

/-- strncasecmp of the literal spelling against the input at off
(config_parser.c:364): byte-wise case-insensitive prefix comparison.
Literal spellings are C strings and contain no NUL, so a comparison that
runs past the end of the input fails on the NUL byte read there. -/
def litMatch (input : List Char) : Nat → List Char → Bool
  | _, [] => true
  | off, c :: rest =>
    ((charAt input off).toLower == c.toLower) && litMatch input (off + 1) rest

/-- The bytes strtol skips as leading whitespace (C isspace). -/
def isCSpace (c : Char) : Bool :=
  c == ' ' || c == '\t' || c == '\n' || c == Char.ofNat 11 ||
    c == Char.ofNat 12 || c == '\r'

/-- Numeric value of a run of decimal digits. -/
def digitsNat (l : List Char) : Nat :=
  l.foldl (fun a c => a * 10 + (c.toNat - 48)) 0

/-- Number of sign bytes strtol consumes after the whitespace. -/
def signLen (l : List Char) : Nat :=
  match l with
  | c :: _ => if c == '-' || c == '+' then 1 else 0
  | [] => 0

/-- Sign factor of the strtol result. -/
def signVal (l : List Char) : Int :=
  match l with
  | c :: _ => if c == '-' then -1 else 1
  | [] => 1

/-- strtol(walk, &end, 10) (config_parser.c:379): skip isspace bytes and
an optional sign, then decimal digits; returns the signed value and the
number of bytes consumed (0 when no digit was found, in which case the C
end pointer equals walk).  The value is unbounded here; the caller
rejects values outside the long range, as the C ERANGE check does. -/
def strtol10 (l : List Char) : Int × Nat :=
  let ws := (l.takeWhile isCSpace).length
  let l1 := l.drop ws
  let ds := (l1.drop (signLen l1)).takeWhile Char.isDigit
  if ds.length = 0 then (0, 0)
  else (signVal l1 * (digitsNat ds : Int), ws + signLen l1 + ds.length)

/-- LONG_MAX of the 64-bit target. -/
def longMax : Int := 2 ^ 63 - 1

/-- LONG_MIN of the 64-bit target. -/
def longMin : Int := -(2 ^ 63)

/-- The quoted-string scan (config_parser.c:402-406): split the bytes
after the opening quote into the content (up to, not including, the
first double quote whose preceding byte is not a backslash, or up to the
terminating NUL) and the remainder; prev is the byte before the current
one, initially the opening quote itself. -/
def quotedSplit (prev : Char) : List Char → List Char × List Char
  | [] => ([], [])
  | c :: rest =>
    if c == nulChar || (c == '"' && !(prev == '\\')) then ([], c :: rest)
    else
      let p := quotedSplit c rest
      (c :: p.1, p.2)

/-- The manual copy loop (config_parser.c:425-435).  nxt is the byte
that follows the content region in the input buffer: the C loop reads
beginning[inpos+1], which for the final content byte is exactly that
byte.  A backslash followed by a double quote contributes only the
double quote; every other byte is copied verbatim. -/
def copyEsc : List Char → Char → List Char
  | [], _ => []
  | [c], nxt => if c == '\\' && nxt == '"' then [nxt] else [c]
  | c1 :: c2 :: rest, nxt =>
    if c1 == '\\' && c2 == '"' then '"' :: copyEsc rest nxt
    else c1 :: copyEsc (c2 :: rest) nxt

/-- A capture performed by a successful token match, applied to the
captured-value stack before the transition. -/
inductive PushAct where
  | nop
  | pstr (id : Ident) (s : String)
  | plong (id : Ident) (v : Int)
deriving DecidableEq

/-- Result of attempting one descriptor at the cursor.  ok carries the
new cursor and the capture; fail carries the cursor value after the
failed attempt — the quoted string/word recognizer advances the shared
walk pointer past the opening quote even when it then rejects empty
content (config_parser.c:402-446), so a failed attempt can leave the
cursor moved. -/
inductive TryRes where
  | ok (off : Nat) (act : PushAct)
  | fail (off : Nat)
deriving DecidableEq

/-- The bytes that continue an unquoted string: everything up to NUL,
CR, LF (config_parser.c:409-410). -/
def strStop (c : Char) : Bool :=
  !(c == nulChar) && !(c == '\r') && !(c == '\n')

/-- The bytes that continue an unquoted word: the delimiters are space,
tab, right bracket, comma, semicolon, CR, LF and NUL
(config_parser.c:415-419). -/
def wordStop (c : Char) : Bool :=
  !(c == ' ') && !(c == '\t') && !(c == ']') && !(c == ',') &&
    !(c == ';') && !(c == '\r') && !(c == '\n') && !(c == nulChar)

/-- The stop predicate selected by the token kind (string or word). -/
def swStop (isStr : Bool) : Char → Bool :=
  if isStr then strStop else wordStop

/-- The capture of the string/word recognizer: push_string under the
descriptor's identifier, if any. -/
def mkPush (ident : Option Ident) (captured : List Char) : PushAct :=
  match ident with
  | some id => .pstr id (String.mk captured)
  | none => .nop

/-- The string/word recognizer (config_parser.c:398-447).  Quoted form:
skip the opening quote, scan to the closing unescaped quote, require
nonempty content, unescape, and skip the closing quote if present.
Unquoted form: consume to end of line (string) or to the word
delimiters space, tab, right bracket, comma, semicolon, CR, LF, NUL
(word); require nonempty content. -/
def strWordTok (isStr : Bool) (input : List Char) (off : Nat)
    (ident : Option Ident) : TryRes :=
  if charAt input off == '"' then
    let b := off + 1
    let content := (quotedSplit '"' (input.drop b)).1
    if content.length = 0 then .fail b
    else
      let e := b + content.length
      let captured := copyEsc content (charAt input e)
      let off2 := if charAt input e == '"' then e + 1 else e
      .ok off2 (mkPush ident captured)
  else
    let content := (input.drop off).takeWhile (swStop isStr)
    if content.length = 0 then .fail off
    else
      let e := off + content.length
      let captured := copyEsc content (charAt input e)
      let off2 := if charAt input e == '"' then e + 1 else e
      .ok off2 (mkPush ident captured)

/-- The bytes a line token consumes before its terminator: everything up
to NUL, LF, CR (config_parser.c:450-451). -/
def lineStop (c : Char) : Bool :=
  !(c == nulChar) && !(c == '\n') && !(c == '\r')

/-- Attempt one token descriptor at the cursor (the branches of the
descriptor loop, config_parser.c:359-477), in source order: literal,
number, string/word, line, end; any other name (such as error) never
matches directly. -/
def tryTok (input : List Char) (off : Nat) (t : CmdpToken) : TryRes :=
  if t.name.toList.headD nulChar == apos then
    let lit := t.name.toList.drop 1
    if litMatch input off lit then
      .ok (off + lit.length)
        (match t.identifier with
         | some id => .pstr id (String.mk lit)
         | none => .nop)
    else .fail off
  else if t.name == "number" then
    let r := strtol10 (input.drop off)
    if r.2 = 0 then .fail off
    else if r.1 < longMin || longMax < r.1 then .fail off
    else
      .ok (off + r.2)
        (match t.identifier with
         | some id => .plong id r.1
         | none => .nop)
  else if t.name == "string" || t.name == "word" then
    strWordTok (t.name == "string") input off t.identifier
  else if t.name == "line" then
    .ok (off + ((input.drop off).takeWhile lineStop).length + 1) .nop
  else if t.name == "end" then
    if charAt input off == nulChar || charAt input off == '\n' ||
        charAt input off == '\r' then
      .ok (off + 1) .nop
    else .fail off
  else .fail off

/-- Result of the descriptor loop over one state's token table. -/
inductive TryListRes where
  | matched (tok : CmdpToken) (off : Nat) (act : PushAct)
  | nomatch (off : Nat)
deriving DecidableEq

/-- Try each descriptor in order (config_parser.c:359); the first match
wins, and a failed attempt may still have advanced the shared cursor
(see TryRes.fail). -/
def tryList (input : List Char) (off : Nat) : List CmdpToken → TryListRes
  | [] => .nomatch off
  | t :: ts =>
    match tryTok input off t with
    | .ok off2 act => .matched t off2 act
    | .fail off2 => tryList input off2 ts

/-- Skipping the rest of the line after a syntax error
(config_parser.c:588-589): advance while the offset is at most len and
the byte is not LF; this stops at the next LF, or at len+1 (one past the
terminating NUL) when no LF remains. -/
def skipToLF (input : List Char) (off : Nat) : Nat :=
  let t := off + ((input.drop off).takeWhile fun c => !(c == '\n')).length
  if t < input.length then t else input.length + 1

/-- The first error descriptor of a state's token table
(config_parser.c:601-603). -/
def findErrTok (G : Grammar) (s : Nat) : Option CmdpToken :=
  (G.tokens s).find? fun t => t.name == "error"

/-- The recovery walk (config_parser.c:598-608): visit the state trail
from its top (statelist_idx - 1) toward the bottom (0) and take the
first error descriptor found. -/
def recoveryWalk (G : Grammar) (sl : List Nat) : Option CmdpToken :=
  sl.reverse.findSome? fun s => findErrTok G s

/-- Apply the capture of a matched token to the stack (the push_string /
push_long calls inside the descriptor loop); none models the fatal
exit(1) on captured-value stack overflow. -/
def applyAct (st : Stack) : PushAct → Option Stack
  | .nop => some st
  | .pstr id s => push_string st id s
  | .plong id v => push_long st id v

/-- The per-iteration state of the parse_config main loop. -/
structure Config where
  off : Nat
  state : Nat
  stack : Stack
  statelist : List Nat
deriving DecidableEq

/-- Outcome of one iteration of the main loop. -/
inductive StepRes where
  | next (c : Config)
  | done (c : Config)
  | fatalStack
  | assertFail
deriving DecidableEq

/-- One iteration of the main loop (config_parser.c:349-612): test the
loop condition walk - input <= len; skip horizontal whitespace; try the
current state's descriptors in order.  On a match, apply the capture
(fatalStack models the exit(1) on captured-value stack overflow) and
transition.  On no match, report (the diagnostic text is errormessage;
the emitted record is not threaded through the state), skip the rest of
the line, clear the stack, and follow the nearest error descriptor
found by walking the trail (assertFail models
assert(error_token_found)). -/
def step (G : Grammar) (input : List Char) (cfg : Config) : StepRes :=
  if input.length < cfg.off then .done cfg
  else
    let off1 := skipWS input cfg.off
    match tryList input off1 (G.tokens cfg.state) with
    | .matched tok off2 act =>
      match applyAct cfg.stack act with
      | none => .fatalStack
      | some st2 =>
        let ps := next_state G tok ⟨cfg.state, st2, cfg.statelist⟩
        .next ⟨off2, ps.state, ps.stack, ps.statelist⟩
    | .nomatch off2 =>
      let off3 := skipToLF input off2
      let st2 := clear_stack cfg.stack
      match recoveryWalk G cfg.statelist with
      | none => .assertFail
      | some tok =>
        let ps := next_state G tok ⟨cfg.state, st2, cfg.statelist⟩
        .next ⟨off3, ps.state, ps.stack, ps.statelist⟩

/-- Outcome of a whole parse. -/
inductive RunOut where
  | finished (c : Config)
  | fatalStack
  | assertFail
deriving DecidableEq

/-- The main loop with explicit fuel; none means the fuel ran out (the
termination theorem exhibits sufficient fuel). -/
def run (G : Grammar) (input : List Char) : Nat → Config → Option RunOut
  | 0, _ => none
  | fuel + 1, cfg =>
    match step G input cfg with
    | .next c => run G input fuel c
    | .done c => some (.finished c)
    | .fatalStack => some (.fatalStack)
    | .assertFail => some (.assertFail)

/-- Initial configuration of parse_config (config_parser.c:323-345):
cursor at 0, state INITIAL, trail [INITIAL] (statelist_idx = 1), all
stack slots unused (the static array is zero-initialized and every parse
leaves it cleared on returning to INITIAL). -/
def initConfig : Config :=
  { off := 0, state := INITIAL, stack := List.replicate 10 none,
    statelist := [INITIAL] }

/-- Follows the spec's words for C6 (the claim side of the refinement):
the only recognized escape sequence is backslash-double-quote, which
contributes a single literal double quote to the captured value; every
other backslash, and every other byte, is preserved verbatim. -/
def unescape_spec : List Char → List Char
  | [] => []
  | [c] => [c]
  | c1 :: c2 :: rest =>
    if c1 = '\\' ∧ c2 = '"' then '"' :: unescape_spec rest
    else c1 :: unescape_spec (c2 :: rest)

/-- Modelled from the spec: invariants of the generated grammar tables
(GENERATED_config_tokens.h is produced by generate-commands-parser.pl
from parser-specs/config.spec and is not part of src/).  Token names
are C strings (no NUL byte); a literal descriptor's spelling is
nonempty; every error descriptor leads back to INITIAL (spec 4.6: the
error transition positions the state back to INITIAL or the enclosing
idle state; INITIAL is the form the termination argument uses);
INITIAL's token table contains an end descriptor and an error
descriptor (the spec's hard invariant). -/
structure GoodGrammar (G : Grammar) : Prop where
  name_no_nul : ∀ s t, t ∈ G.tokens s → nulChar ∉ t.name.toList
  lit_nonempty : ∀ s t, t ∈ G.tokens s →
    t.name.toList.headD nulChar = apos → 2 ≤ t.name.toList.length
  err_to_initial : ∀ s t, t ∈ G.tokens s → t.name = "error" →
    t.next_state = some INITIAL
  initial_has_end : ∃ t, t ∈ G.tokens INITIAL ∧ t.name = "end"
  initial_has_err : ∃ t, t ∈ G.tokens INITIAL ∧ t.name = "error"

/-- The descriptor list of the state considered by C4: the literals
bindsym and bindcode, a word kind, and a trailing error descriptor. -/
def c4Tokens : List CmdpToken :=
  [ ⟨aposStr ++ "bindsym", none, some 1, 0⟩,
    ⟨aposStr ++ "bindcode", none, some 2, 0⟩,
    ⟨"word", some "w", some 3, 0⟩,
    ⟨"error", none, some 0, 0⟩ ]

/-- The concrete quoted input of the C6 witness: a quote, the bytes
a backslash-quote b, and the closing quote. -/
def c6Input : List Char := ['"', 'a', '\\', '"', 'b', '"']

/-- A small concrete grammar for witnesses: INITIAL holds an end and an
error descriptor, state 1 has an empty token table. -/
def witGrammar : Grammar :=
  { tokens := fun s =>
      if s = INITIAL then
        [ ⟨"end", none, some 0, 0⟩, ⟨"error", none, some 0, 0⟩ ]
      else []
    call := fun _ _ => 0 }

/-- Every slot of a cleared stack is unused. -/
theorem stackAllClear_clear (st : Stack) :
    stackAllClear (clear_stack st) = true := by
  unfold clear_stack
  decide

/-- C2: after every handler invocation (a transition through a __CALL
token) and after every transition whose committed next state is INITIAL,
every slot of the captured-value stack is unused. -/
theorem c2_stack_cleared (G : Grammar) (tok : CmdpToken) (ps : PState)
    (h : tok.next_state = none ∨ (next_state G tok ps).state = INITIAL) :
    stackAllClear (next_state G tok ps).stack = true := by
  rcases htok : tok.next_state with _ | s
  · simp only [next_state, htok]
    split
    · exact stackAllClear_clear _
    · exact stackAllClear_clear _
  · rcases h with h | h
    · simp [htok] at h
    · simp only [next_state, htok] at h ⊢
      rw [if_pos h]
      exact stackAllClear_clear _

/-- Witness for C2 at a concrete __CALL transition. -/
theorem c2_stack_cleared_witness :
    stackAllClear (next_state ⟨fun _ => [], fun _ _ => 1⟩
      ⟨"end", none, none, 0⟩
      ⟨3, [some ⟨"x", CVal.str "v"⟩], [0, 3]⟩).stack = true :=
  c2_stack_cleared _ _ _ (Or.inl rfl)

/-- C3: on a transition to state ns the trail is truncated to length i+1
when ns already occurs at (first) position i, with no new entry added,
and ns is appended otherwise; consequently the updated trail is
duplicate-free whenever the previous trail was, and its length
(statelist_idx) is at least 1. -/
theorem c3_statelist_update (l : List Nat) (ns : Nat) :
    (∀ i, l.findIdx? (fun s => s = ns) = some i →
        update_statelist l ns = l.take (i + 1)) ∧
    (ns ∉ l → update_statelist l ns = l ++ [ns]) ∧
    (l.Nodup → (update_statelist l ns).Nodup) ∧
    1 ≤ (update_statelist l ns).length := by
  have hnone : ns ∉ l → l.findIdx? (fun s => s = ns) = none := by
    intro hns
    rw [List.findIdx?_eq_none_iff]
    intro x hx
    simp only [decide_eq_false_iff_not]
    exact fun hxx => hns (hxx ▸ hx)
  refine ⟨?_, ?_, ?_, ?_⟩
  · intro i hi
    simp [update_statelist, hi]
  · intro hns
    simp [update_statelist, hnone hns]
  · intro hnd
    unfold update_statelist
    rcases hfi : l.findIdx? (fun s => s = ns) with _ | i
    · simp only
      rw [List.nodup_append]
      refine ⟨hnd, List.nodup_singleton ns, ?_⟩
      intro a ha hb
      rw [List.mem_singleton] at hb
      subst hb
      rw [List.findIdx?_eq_none_iff] at hfi
      have h2 := hfi a ha
      simp at h2
    · simp only
      exact List.Nodup.sublist (List.take_sublist _ _) hnd
  · unfold update_statelist
    rcases hfi : l.findIdx? (fun s => s = ns) with _ | i
    · simp
    · simp only [List.length_take]
      have hlt : i < l.length :=
        (List.findIdx?_eq_some_iff_findIdx_eq.mp hfi).1
      omega

/-- Witness for C3 at a concrete trail. -/
theorem c3_statelist_update_witness : update_statelist [0, 3] 7 = [0, 3, 7] :=
  (c3_statelist_update [0, 3] 7).2.1 (by decide)

/-- C9 (evaluation at the failing input): with the trail already holding
the 10 distinct states 0..9 (statelist_idx = 10), a transition to the
fresh state 10 extends the live trail to 11 entries; next_state
(config_parser.c:276-277) performs this write with no capacity check,
no diagnostic and no abort — it writes past the end of the 10-entry
statelist array instead of failing fatally. -/
theorem c9_trail_overflow :
    (next_state ⟨fun _ => [], fun _ _ => 0⟩
        ⟨aposStr ++ "mode", none, some 10, 0⟩
        ⟨9, List.replicate 10 none, List.range 10⟩).statelist =
      List.range 11 ∧
    (List.range 11).length = 11 := by
  constructor
  · decide
  · decide

/-- C4 is false as stated: the error descriptor is elided, but the ", "
separator already emitted after the preceding visible entry is not
suppressed, so the built message differs from the claimed one. -/
theorem c4_counterexample :
    errormessage c4Tokens ≠
      "Expected one of these tokens: " ++ aposStr ++ "bindsym" ++ aposStr ++
        ", " ++ aposStr ++ "bindcode" ++ aposStr ++ ", <word>" := by
  decide

/-- C4 amended: entries are formatted (literals single-quoted without
the leading apostrophe, kinds angle-bracketed, error elided) and ordered
as claimed, separated by ", "; but the separator follows every
descriptor position except the positionally last one, so with the error
descriptor last the message carries a trailing ", ". -/
theorem c4_message_format :
    errormessage c4Tokens =
      "Expected one of these tokens: " ++ aposStr ++ "bindsym" ++ aposStr ++
        ", " ++ aposStr ++ "bindcode" ++ aposStr ++ ", <word>, " := by
  decide

/-- C5: pushing s1 under an identifier with no entry on the stack stores
s1 in the first free slot; pushing s2 under the same identifier then
replaces the stored value with the old value, a comma, and s2; a
handler reading the identifier through get_string sees the comma-joined
accumulation s1,s2. -/
theorem c5_push_string_accumulates :
    ∀ (st : Stack) (id : Ident) (s1 s2 : String),
    stackHasId st id = false → none ∈ st →
    ∃ k st1 st2,
      st[k]? = some none ∧
      push_string st id s1 = some st1 ∧
      st1 = st.set k (some ⟨id, .str s1⟩) ∧
      get_string st1 id = some s1 ∧
      push_string st1 id s2 = some st2 ∧
      st2 = st1.set k (some ⟨id, .str (s1 ++ "," ++ s2)⟩) ∧
      get_string st2 id = some (s1 ++ "," ++ s2)
  | [], _, _, _, _, hfree => absurd hfree (by simp)
  | none :: rest, id, s1, s2, _, _ => by
    refine ⟨0, some ⟨id, .str s1⟩ :: rest,
      some ⟨id, .str (s1 ++ "," ++ s2)⟩ :: rest, by simp, rfl, rfl, ?_, ?_, rfl, ?_⟩
    · simp [get_string, CVal.asStr]
    · simp [push_string]
    · simp [get_string, CVal.asStr]
  | some e :: rest, id, s1, s2, habs, hfree => by
    have hne : ¬ (e.identifier = id) := by
      simp [stackHasId] at habs
      exact habs.1
    have habs2 : stackHasId rest id = false := by
      simp [stackHasId] at habs ⊢
      exact habs.2
    have hfree2 : none ∈ rest := by
      rcases List.mem_cons.mp hfree with h | h
      · cases h
      · exact h
    obtain ⟨k, st1, st2, hk, h1, hset1, hget1, h2, hset2, hget2⟩ :=
      c5_push_string_accumulates rest id s1 s2 habs2 hfree2
    refine ⟨k + 1, some e :: st1, some e :: st2, ?_, ?_, ?_, ?_, ?_, ?_, ?_⟩
    · simpa using hk
    · simp [push_string, hne, h1]
    · simp only [List.set_cons_succ]
      rw [hset1]
    · simp [get_string, hne, hget1]
    · simp [push_string, hne, h2]
    · simp only [List.set_cons_succ]
      rw [hset2]
    · simp [get_string, hne, hget2]

/-- Witness for C5 on the all-free stack. -/
theorem c5_push_string_accumulates_witness :
    ∃ k st1 st2,
      (List.replicate 10 (none : Option StackEntry))[k]? = some none ∧
      push_string (List.replicate 10 none) "ws" "a" = some st1 ∧
      st1 = (List.replicate 10 none).set k (some ⟨"ws", .str "a"⟩) ∧
      get_string st1 "ws" = some "a" ∧
      push_string st1 "ws" "b" = some st2 ∧
      st2 = st1.set k (some ⟨"ws", .str ("a" ++ "," ++ "b")⟩) ∧
      get_string st2 "ws" = some ("a" ++ "," ++ "b") :=
  c5_push_string_accumulates _ "ws" "a" "b" (by decide) (by decide)

/-- A stack without the identifier has no slot counted for it. -/
theorem stackCountId_eq_zero (st : Stack) (id : Ident)
    (h : stackHasId st id = false) : stackCountId st id = 0 := by
  rw [stackCountId, List.countP_eq_zero]
  rw [stackHasId, List.any_eq_false] at h
  exact h

/-- push_long into a stack having a free slot and not holding the
identifier: it succeeds, the identifier then occupies exactly one slot,
and get_long reaches it. -/
theorem push_long_succeeds (id : Ident) (v : Int) :
    ∀ st : Stack, stackHasId st id = false → 1 ≤ stackFreeCount st →
    ∃ st', push_long st id v = some st' ∧ stackCountId st' id = 1 ∧
      get_long st' id = v
  | [], _, hfree => by simp [stackFreeCount] at hfree
  | none :: rest, habs, _ => by
    have habs2 : stackHasId rest id = false := by simpa [stackHasId] using habs
    refine ⟨some ⟨id, .num v⟩ :: rest, rfl, ?_, ?_⟩
    · simp [stackCountId, List.countP_cons]
      have := stackCountId_eq_zero rest id habs2
      simpa [stackCountId] using this
    · simp [get_long, CVal.asNum]
  | some e :: rest, habs, hfree => by
    have hne : ¬ (e.identifier = id) := by
      simp [stackHasId] at habs
      exact habs.1
    have habs2 : stackHasId rest id = false := by
      simp [stackHasId] at habs ⊢
      exact habs.2
    have hfree2 : 1 ≤ stackFreeCount rest := by
      simpa [stackFreeCount, List.countP_cons] using hfree
    obtain ⟨st', h1, hcnt, hget⟩ := push_long_succeeds id v rest habs2 hfree2
    refine ⟨some e :: st', ?_, ?_, ?_⟩
    · simp [push_long, h1]
    · simp only [stackCountId, List.countP_cons] at hcnt ⊢
      simp [hne, hcnt]
    · simp [get_long, hne, hget]

/-- C8 is false as stated: on the empty stack, two push_long calls under
the identifier x occupy two distinct slots (not exactly one), and
get_long returns 1, the first value pushed, not the most recently
pushed 2. -/
theorem c8_counterexample :
    push_long (List.replicate 10 none) "x" 1 =
      some (some ⟨"x", .num 1⟩ :: List.replicate 9 none) ∧
    push_long (some ⟨"x", .num 1⟩ :: List.replicate 9 none) "x" 2 =
      some (some ⟨"x", .num 1⟩ :: some ⟨"x", .num 2⟩ :: List.replicate 8 none) ∧
    stackCountId
      (some ⟨"x", .num 1⟩ :: some ⟨"x", .num 2⟩ :: List.replicate 8 none) "x" = 2 ∧
    get_long
      (some ⟨"x", .num 1⟩ :: some ⟨"x", .num 2⟩ :: List.replicate 8 none) "x" = 1 := by
  refine ⟨by decide, by decide, by decide, by decide⟩

/-- C8 amended: push_long performs no per-identifier coalescing — every
push occupies a fresh free slot, so after two pushes under one
identifier two slots hold it, and get_long returns the value pushed
first (the earliest since the last clear), not the most recent one;
get_long still returns 0 when the identifier is absent (by its
definition). -/
theorem c8_push_long_no_coalesce :
    ∀ (st : Stack) (id : Ident) (v w : Int),
    stackHasId st id = false → 2 ≤ stackFreeCount st →
    ∃ st1 st2,
      push_long st id v = some st1 ∧
      push_long st1 id w = some st2 ∧
      stackCountId st2 id = 2 ∧
      get_long st1 id = v ∧
      get_long st2 id = v
  | [], _, _, _, _, hfree => by simp [stackFreeCount] at hfree
  | none :: rest, id, v, w, habs, hfree => by
    have habs2 : stackHasId rest id = false := by simpa [stackHasId] using habs
    have hfree2 : 1 ≤ stackFreeCount rest := by
      have h' : stackFreeCount (none :: rest) = stackFreeCount rest + 1 := by
        simp [stackFreeCount, List.countP_cons]
      omega
    obtain ⟨r2, h1, hcnt, _⟩ := push_long_succeeds id w rest habs2 hfree2
    refine ⟨some ⟨id, .num v⟩ :: rest, some ⟨id, .num v⟩ :: r2, rfl, ?_, ?_, ?_, ?_⟩
    · simp [push_long, h1]
    · simp only [stackCountId, List.countP_cons] at hcnt ⊢
      simp [hcnt]
    · simp [get_long, CVal.asNum]
    · simp [get_long, CVal.asNum]
  | some e :: rest, id, v, w, habs, hfree => by
    have hne : ¬ (e.identifier = id) := by
      simp [stackHasId] at habs
      exact habs.1
    have habs2 : stackHasId rest id = false := by
      simp [stackHasId] at habs ⊢
      exact habs.2
    have hfree2 : 2 ≤ stackFreeCount rest := by
      simpa [stackFreeCount, List.countP_cons] using hfree
    obtain ⟨st1, st2, h1, h2, hcnt, hg1, hg2⟩ :=
      c8_push_long_no_coalesce rest id v w habs2 hfree2
    refine ⟨some e :: st1, some e :: st2, ?_, ?_, ?_, ?_, ?_⟩
    · simp [push_long, h1]
    · simp [push_long, h2]
    · simp only [stackCountId, List.countP_cons] at hcnt ⊢
      simp [hne, hcnt]
    · simp [get_long, hne, hg1]
    · simp [get_long, hne, hg2]

/-- Witness for the amended C8 on the all-free stack. -/
theorem c8_push_long_no_coalesce_witness :
    ∃ st1 st2,
      push_long (List.replicate 10 none) "n" 5 = some st1 ∧
      push_long st1 "n" 7 = some st2 ∧
      stackCountId st2 "n" = 2 ∧
      get_long st1 "n" = 5 ∧
      get_long st2 "n" = 5 :=
  c8_push_long_no_coalesce _ "n" 5 7 (by decide) (by decide)

/-- A stack whose slots are all unused: it is contiguous and the
full-scan lookups find nothing. -/
theorem allNone_lookup (st : Stack)
    (h : st.all (fun sl => sl = none) = true) :
    stackContig st = true ∧ (∀ id, get_string_full st id = none) ∧
    (∀ id, get_long_full st id = 0) := by
  induction st with
  | nil => exact ⟨rfl, fun _ => rfl, fun _ => rfl⟩
  | cons hd rest ih =>
    simp only [List.all_cons, Bool.and_eq_true] at h
    obtain ⟨ha, h2⟩ := h
    have h1 : hd = none := of_decide_eq_true ha
    subst h1
    obtain ⟨hc, hs, hl⟩ := ih h2
    refine ⟨?_, ?_, ?_⟩
    · simpa [stackContig] using h2
    · intro id
      simpa [get_string_full] using hs id
    · intro id
      simpa [get_long_full] using hl id

/-- push_string preserves contiguity of the occupied prefix. -/
theorem push_string_contig :
    ∀ (st : Stack) (id : Ident) (s : String) (st' : Stack),
    stackContig st = true → push_string st id s = some st' →
    stackContig st' = true
  | [], _, _, _, _, h => by cases h
  | none :: rest, id, s, st', hc, h => by
    simp only [push_string, Option.some.injEq] at h
    subst h
    simp only [stackContig] at hc ⊢
    exact (allNone_lookup rest hc).1
  | some e :: rest, id, s, st', hc, h => by
    simp only [stackContig] at hc
    by_cases hne : e.identifier = id
    · simp only [push_string, hne, ne_eq, not_true_eq_false, if_false] at h
      rcases hval : e.val with s0 | n0
      · rw [hval] at h
        simp only [Option.some.injEq] at h
        subst h
        simpa [stackContig] using hc
      · rw [hval] at h
        cases h
    · simp only [push_string, ne_eq, hne, not_false_eq_true, if_true,
        Option.map_eq_some'] at h
      obtain ⟨r', hr, rfl⟩ := h
      simp only [stackContig]
      exact push_string_contig rest id s r' hc hr

/-- push_long preserves contiguity of the occupied prefix. -/
theorem push_long_contig :
    ∀ (st : Stack) (id : Ident) (v : Int) (st' : Stack),
    stackContig st = true → push_long st id v = some st' →
    stackContig st' = true
  | [], _, _, _, _, h => by cases h
  | none :: rest, id, v, st', hc, h => by
    simp only [push_long, Option.some.injEq] at h
    subst h
    simp only [stackContig] at hc ⊢
    exact (allNone_lookup rest hc).1
  | some e :: rest, id, v, st', hc, h => by
    simp only [stackContig] at hc
    simp only [push_long, Option.map_eq_some'] at h
    obtain ⟨r', hr, rfl⟩ := h
    simp only [stackContig]
    exact push_long_contig rest id v r' hc hr

/-- On a contiguous stack the early-stopping get_string agrees with the
full scan. -/
theorem get_string_contig : ∀ (st : Stack) (id : Ident),
    stackContig st = true → get_string st id = get_string_full st id
  | [], _, _ => rfl
  | none :: rest, id, hc => by
    simp only [stackContig] at hc
    simp only [get_string, get_string_full]
    exact ((allNone_lookup rest hc).2.1 id).symm
  | some e :: rest, id, hc => by
    simp only [stackContig] at hc
    simp only [get_string, get_string_full]
    by_cases hne : e.identifier = id
    · simp [hne]
    · simp only [if_neg hne]
      exact get_string_contig rest id hc

/-- On a contiguous stack the early-stopping get_long agrees with the
full scan. -/
theorem get_long_contig : ∀ (st : Stack) (id : Ident),
    stackContig st = true → get_long st id = get_long_full st id
  | [], _, _ => rfl
  | none :: rest, id, hc => by
    simp only [stackContig] at hc
    simp only [get_long, get_long_full]
    exact ((allNone_lookup rest hc).2.2 id).symm
  | some e :: rest, id, hc => by
    simp only [stackContig] at hc
    simp only [get_long, get_long_full]
    by_cases hne : e.identifier = id
    · simp [hne]
    · simp only [if_neg hne]
      exact get_long_contig rest id hc

/-- C10: the operations preserve contiguity of the occupied prefix
(pushes fill the first free slot, clears reset every slot), and on a
contiguous stack the lookups get_string and get_long — which stop at the
first slot whose identifier is NULL — agree with a full scan of all 10
slots, so they never miss an occupied slot stored after a gap. -/
theorem c10_contiguous_lookups :
    (∀ st id s st', stackContig st = true → push_string st id s = some st' →
        stackContig st' = true) ∧
    (∀ st id v st', stackContig st = true → push_long st id v = some st' →
        stackContig st' = true) ∧
    (∀ st, stackContig (clear_stack st) = true) ∧
    (∀ st id, stackContig st = true → get_string st id = get_string_full st id) ∧
    (∀ st id, stackContig st = true → get_long st id = get_long_full st id) :=
  ⟨push_string_contig, push_long_contig,
    fun st => by unfold clear_stack; decide,
    get_string_contig, get_long_contig⟩

/-- Witness for C10 at a concrete contiguous stack. -/
theorem c10_contiguous_lookups_witness :
    get_string [some ⟨"a", CVal.str "v"⟩, none, none] "b" =
      get_string_full [some ⟨"a", CVal.str "v"⟩, none, none] "b" :=
  c10_contiguous_lookups.2.2.2.1 _ "b" (by decide)


/-- Structure of the quoted scan: content and remainder recompose the
scanned bytes, and when the scan stopped on a double quote the byte
before it (the last content byte, or the opening quote when the content
is empty) is not a backslash. -/
theorem quotedSplit_spec : ∀ (prev : Char) (l : List Char),
    (quotedSplit prev l).1 ++ (quotedSplit prev l).2 = l ∧
    (∀ c rest2, (quotedSplit prev l).2 = c :: rest2 →
      c = nulChar ∨ (c = '"' ∧ (quotedSplit prev l).1.getLastD prev ≠ '\\'))
  | prev, [] => ⟨rfl, fun c rest2 h => by cases h⟩
  | prev, c :: rest => by
    by_cases hstop : (c == nulChar || (c == '"' && !(prev == '\\'))) = true
    · have hq : quotedSplit prev (c :: rest) = ([], c :: rest) := by
        simp only [quotedSplit]
        rw [if_pos hstop]
      rw [hq]
      dsimp only
      refine ⟨rfl, ?_⟩
      intro c2 rest2 h
      injection h with h1 h2
      subst h1
      rw [List.getLastD_nil]
      have hstop' : c = nulChar ∨ (c = '"' ∧ ¬ prev = '\\') := by
        simpa using hstop
      rcases hstop' with h1 | ⟨h1, h2⟩
      · exact Or.inl h1
      · exact Or.inr ⟨h1, h2⟩
    · have ih := quotedSplit_spec c rest
      have hq : quotedSplit prev (c :: rest) =
          (c :: (quotedSplit c rest).1, (quotedSplit c rest).2) := by
        simp only [quotedSplit]
        rw [if_neg hstop]
      rw [hq]
      dsimp only
      constructor
      · rw [List.cons_append, ih.1]
      · intro c2 rest2 h
        rcases ih.2 c2 rest2 h with h1 | ⟨h1, h2⟩
        · exact Or.inl h1
        · exact Or.inr ⟨h1, by rwa [List.getLastD_cons]⟩

/-- The copy loop agrees with the spec-side unescaping whenever the byte
following the region is not a double quote, or the last content byte is
not a backslash; the quoted scan guarantees one of the two. -/
theorem copyEsc_eq : ∀ (l : List Char) (nxt : Char),
    (¬ nxt = '"' ∨ l.getLast? ≠ some '\\') → copyEsc l nxt = unescape_spec l
  | [], _, _ => rfl
  | [c], nxt, h => by
    have hcond : (c == '\\' && nxt == '"') = false := by
      rcases h with h | h
      · simp [h]
      · have hc : ¬ c = '\\' := by simpa using h
        simp [hc]
    simp [copyEsc, unescape_spec, hcond]
  | c1 :: c2 :: rest, nxt, h => by
    by_cases hesc : (c1 == '\\' && c2 == '"') = true
    · obtain ⟨h1, h2⟩ : c1 = '\\' ∧ c2 = '"' := by simpa using hesc
      subst h1
      subst h2
      have hrec : ¬ nxt = '"' ∨ rest.getLast? ≠ some '\\' := by
        rcases h with h | h
        · exact Or.inl h
        · rcases rest with _ | ⟨r, rs⟩
          · exact Or.inr (by simp)
          · exact Or.inr (by simpa [List.getLast?_cons_cons] using h)
      have e1 : copyEsc ('\\' :: '"' :: rest) nxt = '"' :: copyEsc rest nxt := by
        simp [copyEsc]
      have e2 : unescape_spec ('\\' :: '"' :: rest) = '"' :: unescape_spec rest := by
        simp [unescape_spec]
      rw [e1, e2, copyEsc_eq rest nxt hrec]
    · have hne : ¬ (c1 = '\\' ∧ c2 = '"') := by
        intro hand
        rw [hand.1, hand.2] at hesc
        simp at hesc
      have hrec : ¬ nxt = '"' ∨ (c2 :: rest).getLast? ≠ some '\\' := by
        rcases h with h | h
        · exact Or.inl h
        · exact Or.inr (by simpa [List.getLast?_cons_cons] using h)
      have e1 : copyEsc (c1 :: c2 :: rest) nxt = c1 :: copyEsc (c2 :: rest) nxt := by
        simp only [copyEsc]
        rw [if_neg hesc]
      have e2 : unescape_spec (c1 :: c2 :: rest) = c1 :: unescape_spec (c2 :: rest) := by
        simp only [unescape_spec]
        rw [if_neg hne]
      rw [e1, e2, copyEsc_eq (c2 :: rest) nxt hrec]

/-- C6: on a quoted string/word token match the captured value is the
quoted content with each backslash-double-quote pair contributing a
single literal double quote and every other byte — including every
other backslash — preserved verbatim (unescape_spec); and quoted
content of zero bytes never matches (the attempt fails, leaving the
shared cursor just past the opening quote). -/
theorem c6_quoted_escape (isStr : Bool) (input : List Char) (off : Nat)
    (ident : Ident) (hq : charAt input off = '"') :
    (∀ off2 act, strWordTok isStr input off (some ident) = .ok off2 act →
      act = .pstr ident
        (String.mk (unescape_spec (quotedSplit '"' (input.drop (off + 1))).1)) ∧
      (quotedSplit '"' (input.drop (off + 1))).1 ≠ []) ∧
    ((quotedSplit '"' (input.drop (off + 1))).1 = [] →
      strWordTok isStr input off (some ident) = .fail (off + 1)) := by
  have hq' : (charAt input off == '"') = true := by simp [hq]
  obtain ⟨content, rem, hcr⟩ :
      ∃ a b, quotedSplit '"' (input.drop (off + 1)) = (a, b) := ⟨_, _, rfl⟩
  have hsplit := quotedSplit_spec '"' (input.drop (off + 1))
  rw [hcr] at hsplit ⊢
  dsimp only at hsplit ⊢
  have hsw : strWordTok isStr input off (some ident) =
      (if content.length = 0 then TryRes.fail (off + 1)
       else
        TryRes.ok
          (if charAt input (off + 1 + content.length) == '"'
           then off + 1 + content.length + 1 else off + 1 + content.length)
          (mkPush (some ident)
            (copyEsc content (charAt input (off + 1 + content.length))))) := by
    simp only [strWordTok, hq', if_true, hcr]
  have hnxt : charAt input (off + 1 + content.length) = rem.headD nulChar := by
    have hdec : input.drop (off + 1) = content ++ rem := by
      rw [← hsplit.1]
    have hstep : charAt input (off + 1 + content.length) =
        (input.drop (off + 1)).getD content.length nulChar := by
      simp [charAt, List.getD_eq_getElem?_getD, List.getElem?_drop]
    rw [hstep, hdec]
    rcases rem with _ | ⟨r, rs⟩
    · rw [List.append_nil]
      rw [List.getD_eq_getElem?_getD, List.getElem?_eq_none (le_refl _)]
      rfl
    · simp [List.getD_eq_getElem?_getD, List.getElem?_append_right (le_refl _)]
  by_cases hlen : content.length = 0
  · constructor
    · intro off2 act h
      rw [hsw, if_pos hlen] at h
      cases h
    · intro _
      rw [hsw, if_pos hlen]
  · have hne : content ≠ [] := by
      intro h0
      rw [h0] at hlen
      exact hlen rfl
    have hdisj : ¬ rem.headD nulChar = '"' ∨ content.getLast? ≠ some '\\' := by
      rcases rem with _ | ⟨r, rs⟩
      · refine Or.inl ?_
        rw [List.headD_nil]
        decide
      · rcases hsplit.2 r rs rfl with h1 | ⟨h1, h2⟩
        · refine Or.inl ?_
          rw [List.headD_cons, h1]
          decide
        · refine Or.inr ?_
          rw [List.getLastD_eq_getLast?] at h2
          intro hcon
          rw [hcon] at h2
          simp at h2
    have hcopy : copyEsc content (charAt input (off + 1 + content.length)) =
        unescape_spec content := by
      apply copyEsc_eq
      rw [hnxt]
      exact hdisj
    constructor
    · intro off2 act h
      rw [hsw, if_neg hlen] at h
      refine ⟨?_, hne⟩
      by_cases hclose : (charAt input (off + 1 + content.length) == '"') = true
      · rw [if_pos hclose] at h
        injection h with h1 h2
        rw [← h2]
        simp only [mkPush]
        rw [hcopy]
      · rw [if_neg hclose] at h
        injection h with h1 h2
        rw [← h2]
        simp only [mkPush]
        rw [hcopy]
    · intro h0
      exact absurd h0 hne

/-- Witness for C6 at the concrete input: the match succeeds and
captures the three bytes a, double quote, b. -/
theorem c6_quoted_escape_witness :
    PushAct.pstr "v" (String.mk ['a', '"', 'b']) =
      PushAct.pstr "v"
        (String.mk (unescape_spec (quotedSplit '"' (c6Input.drop 1)).1)) ∧
    (quotedSplit '"' (c6Input.drop 1)).1 ≠ [] :=
  (c6_quoted_escape true c6Input 0 "v" (by decide)).1 6
    (PushAct.pstr "v" (String.mk ['a', '"', 'b'])) (by decide)

/-- Whatever transition the recovery engine takes, the stack it hands to
next_state is already cleared, and next_state never un-clears it. -/
theorem next_state_stack_of_clear (G : Grammar) (tok : CmdpToken) (s : Nat)
    (st : Stack) (sl : List Nat) :
    stackAllClear (next_state G tok ⟨s, clear_stack st, sl⟩).stack = true := by
  rcases htok : tok.next_state with _ | s2
  · simp only [next_state, htok]
    split
    · exact stackAllClear_clear _
    · exact stackAllClear_clear _
  · simp only [next_state, htok]
    split
    · exact stackAllClear_clear _
    · exact stackAllClear_clear _

/-- C1: on a syntax error (no descriptor matched; the diagnostic built
from errormessage has been emitted) the recovery engine clears the
captured-value stack, walks the state trail from its top toward the
bottom and takes the transition of the first visited state whose token
table contains a descriptor named error, and advances the cursor to the
next LF (or past the end of input when none remains); because INITIAL
sits at trail position 0 and — a hard grammar invariant — its table
contains an error descriptor, the walk succeeds for every reachable
trail: step never returns assertFail and parsing continues. -/
theorem c1_error_recovery (G : Grammar) (input : List Char) (cfg : Config)
    (off2 : Nat)
    (hinit0 : cfg.statelist.headD 1 = INITIAL)
    (herr : ∃ t, t ∈ G.tokens INITIAL ∧ t.name = "error")
    (hoff : cfg.off ≤ input.length)
    (hnm : tryList input (skipWS input cfg.off) (G.tokens cfg.state) =
      .nomatch off2) :
    ∃ tok cfg2, recoveryWalk G cfg.statelist = some tok ∧ tok.name = "error" ∧
      step G input cfg = .next cfg2 ∧
      cfg2.off = skipToLF input off2 ∧
      stackAllClear cfg2.stack = true := by
  -- the trail is nonempty with INITIAL at position 0
  rcases hsl : cfg.statelist with _ | ⟨s0, rest⟩
  · rw [hsl] at hinit0
    simp [List.headD_nil] at hinit0
  have hs0 : s0 = INITIAL := by
    rw [hsl] at hinit0
    simpa [List.headD_cons] using hinit0
  -- INITIAL's table yields an error descriptor through find?
  have hfind : ∃ t0, findErrTok G INITIAL = some t0 := by
    obtain ⟨t, htmem, htname⟩ := herr
    have : ((G.tokens INITIAL).find? fun t => t.name == "error").isSome = true := by
      rw [List.find?_isSome]
      exact ⟨t, htmem, by simp [htname]⟩
    rcases hf : (G.tokens INITIAL).find? fun t => t.name == "error" with _ | t0
    · rw [hf] at this
      cases this
    · exact ⟨t0, hf⟩
  -- the walk over the reversed trail finds some error descriptor
  have hwalkSome : recoveryWalk G (s0 :: rest) ≠ none := by
    intro hnone
    rw [recoveryWalk, List.findSome?_eq_none_iff] at hnone
    obtain ⟨t0, hf⟩ := hfind
    have hmem : s0 ∈ (s0 :: rest).reverse := by
      rw [List.mem_reverse]
      exact List.mem_cons_self _ _
    have := hnone s0 hmem
    rw [hs0, hf] at this
    cases this
  rcases hwalk : recoveryWalk G (s0 :: rest) with _ | tok
  · exact absurd hwalk hwalkSome
  -- the found descriptor is an error descriptor of some visited state
  have hname : tok.name = "error" := by
    rw [recoveryWalk] at hwalk
    obtain ⟨s1, _, hfs⟩ := List.exists_of_findSome?_eq_some hwalk
    have := List.find?_some hfs
    simpa using this
  refine ⟨tok,
    ⟨skipToLF input off2,
      (next_state G tok ⟨cfg.state, clear_stack cfg.stack, s0 :: rest⟩).state,
      (next_state G tok ⟨cfg.state, clear_stack cfg.stack, s0 :: rest⟩).stack,
      (next_state G tok ⟨cfg.state, clear_stack cfg.stack, s0 :: rest⟩).statelist⟩,
    rfl, hname, ?_, rfl, ?_⟩
  · simp only [step]
    rw [if_neg (not_lt.mpr hoff), hnm, hsl, hwalk]
  · exact next_state_stack_of_clear G tok cfg.state cfg.stack (s0 :: rest)

/-- Witness for C1: in state 1 (empty token table) on input x nothing
matches, and recovery through the error descriptor of INITIAL (trail
position 0) succeeds. -/
theorem c1_error_recovery_witness :
    ∃ tok cfg2,
      recoveryWalk witGrammar ([0, 1] : List Nat) = some tok ∧
      tok.name = "error" ∧
      step witGrammar ['x'] ⟨0, 1, List.replicate 10 none, [0, 1]⟩ = .next cfg2 ∧
      cfg2.off = skipToLF ['x'] 0 ∧
      stackAllClear cfg2.stack = true :=
  c1_error_recovery witGrammar ['x'] ⟨0, 1, List.replicate 10 none, [0, 1]⟩ 0
    (by decide) ⟨⟨"error", none, some 0, 0⟩, by decide, rfl⟩ (by decide) (by decide)

/-- toNat of ofNat at a valid code point. -/
theorem char_toNat_ofNat (n : Nat) (h : n.isValidChar) :
    (Char.ofNat n).toNat = n := by
  unfold Char.ofNat
  rw [dif_pos h]
  unfold Char.ofNatAux Char.toNat
  simp [UInt32.toNat, BitVec.toNat_ofNatLt]

/-- Lowercasing a non-NUL byte never yields NUL. -/
theorem toLower_ne_nul (c : Char) (h : ¬ c = nulChar) :
    ¬ c.toLower = nulChar := by
  intro hc
  apply h
  unfold Char.toLower at hc
  dsimp only at hc
  split at hc
  · rename_i hcond
    have hval : (c.toNat + 32).isValidChar := Or.inl (by omega)
    have h2 := congrArg Char.toNat hc
    rw [char_toNat_ofNat _ hval] at h2
    have h0 : nulChar.toNat = 0 := by decide
    rw [h0] at h2
    omega
  · exact hc

/-- A non-NUL byte read through charAt lies inside the input. -/
theorem lt_of_charAt_ne_nul (input : List Char) (off : Nat)
    (h : ¬ charAt input off = nulChar) : off < input.length := by
  by_contra hge
  apply h
  rw [charAt, List.getD_eq_getElem?_getD, List.getElem?_eq_none (by omega)]
  rfl

/-- Matching a NUL-free nonempty literal keeps the cursor inside the
input. -/
theorem litMatch_bound (input : List Char) : ∀ (lit : List Char) (off : Nat),
    litMatch input off lit = true → (∀ c ∈ lit, ¬ c = nulChar) → lit ≠ [] →
    off + lit.length ≤ input.length
  | [], _, _, _, hne => absurd rfl hne
  | c :: rest, off, h, hnul, _ => by
    simp only [litMatch, Bool.and_eq_true, beq_iff_eq] at h
    have hc : ¬ c = nulChar := hnul c (List.mem_cons_self _ _)
    have hcn : ¬ charAt input off = nulChar := by
      intro h0
      apply toLower_ne_nul c hc
      rw [← h.1, h0]
      decide
    have hlt := lt_of_charAt_ne_nul input off hcn
    rcases rest with _ | ⟨r, rs⟩
    · simpa using hlt
    · have hrec := litMatch_bound input (r :: rs) (off + 1) h.2
        (fun x hx => hnul x (List.mem_cons_of_mem _ hx)) (by simp)
      simp only [List.length_cons] at hrec ⊢
      omega

/-- The sign scan consumes at most one byte. -/
theorem signLen_le (l : List Char) : signLen l ≤ l.length := by
  unfold signLen
  rcases l with _ | ⟨c, cs⟩
  · simp
  · dsimp only
    split
    · simp
    · simp

/-- strtol never consumes more bytes than remain. -/
theorem strtol10_le (l : List Char) : (strtol10 l).2 ≤ l.length := by
  unfold strtol10
  dsimp only
  split
  · simp
  · dsimp only
    have hA : (l.takeWhile isCSpace).length ≤ l.length :=
      List.Sublist.length_le (List.takeWhile_sublist _)
    have hB := signLen_le (l.drop (l.takeWhile isCSpace).length)
    have hC :
        (((l.drop (l.takeWhile isCSpace).length).drop
            (signLen (l.drop (l.takeWhile isCSpace).length))).takeWhile
          Char.isDigit).length ≤
        ((l.drop (l.takeWhile isCSpace).length).drop
            (signLen (l.drop (l.takeWhile isCSpace).length))).length :=
      List.Sublist.length_le (List.takeWhile_sublist _)
    simp only [List.length_drop] at hB hC
    omega

/-- The whitespace skip never moves backwards and stays inside the
input when it started inside. -/
theorem skipWS_bounds (input : List Char) (off : Nat) :
    off ≤ skipWS input off ∧ (off ≤ input.length → skipWS input off ≤ input.length) := by
  constructor
  · unfold skipWS
    omega
  · intro hoff
    unfold skipWS
    have h1 : ((input.drop off).takeWhile fun c => c == ' ' || c == '\t').length ≤
        (input.drop off).length :=
      List.Sublist.length_le (List.takeWhile_sublist _)
    rw [List.length_drop] at h1
    omega

/-- The skip to the next LF never moves backwards and ends at most one
past the terminating NUL. -/
theorem skipToLF_bounds (input : List Char) (off : Nat)
    (hoff : off ≤ input.length) :
    off ≤ skipToLF input off ∧ skipToLF input off ≤ input.length + 1 := by
  unfold skipToLF
  dsimp only
  split
  · constructor
    · omega
    · rename_i hlt
      omega
  · constructor
    · rename_i hge
      have h1 : ((input.drop off).takeWhile fun c => !(c == '\n')).length ≤
          (input.drop off).length :=
        List.Sublist.length_le (List.takeWhile_sublist _)
      rw [List.length_drop] at h1
      omega
    · omega

/-- When the skip to the next LF does not move, the cursor already sits
on an LF byte (given it is inside the input). -/
theorem skipToLF_stuck (input : List Char) (off : Nat)
    (hoff : off ≤ input.length) (h : skipToLF input off = off) :
    charAt input off = '\n' := by
  unfold skipToLF at h
  dsimp only at h
  split at h
  · -- off + takeWhile-length = off inside the input: length 0
    rename_i hlt
    have htw : ((input.drop off).takeWhile fun c => !(c == '\n')).length = 0 := by
      omega
    have hoff' : off < input.length := by omega
    rcases hd : input.drop off with _ | ⟨c, cs⟩
    · have := congrArg List.length hd
      rw [List.length_drop] at this
      simp at this
      omega
    · rw [hd, List.takeWhile_cons] at htw
      split at htw
      · simp at htw
      · rename_i hc
        have hceq : c = '\n' := by
          simpa using hc
        have : charAt input off = c := by
          rw [charAt, List.getD_eq_getElem?_getD]
          have h0 : input[off]? = (input.drop off)[0]? := by
            rw [List.getElem?_drop, Nat.add_zero]
          rw [h0, hd]
          simp
        rw [this, hceq]
  · -- off = input.length + 1 contradicts hoff unless impossible
    omega

/-- A cursor inside the input plus any takeWhile run stays inside the
input. -/
theorem off_takeWhile_bound (input : List Char) (off : Nat) (p : Char → Bool)
    (hoff : off ≤ input.length) :
    off + ((input.drop off).takeWhile p).length ≤ input.length := by
  have h1 : ((input.drop off).takeWhile p).length ≤ (input.drop off).length :=
    List.Sublist.length_le (List.takeWhile_sublist _)
  rw [List.length_drop] at h1
  omega

/-- A failed string/word attempt leaves the cursor where it was, or —
for empty quoted content — one byte further, just past the opening
quote. -/
theorem strWordTok_fail (isStr : Bool) (input : List Char) (off : Nat)
    (ident : Option Ident) (off' : Nat)
    (h : strWordTok isStr input off ident = .fail off') :
    off' = off ∨ (off' = off + 1 ∧ charAt input off = '"') := by
  simp only [strWordTok] at h
  by_cases hq : (charAt input off == '"') = true
  · rw [if_pos hq] at h
    split at h
    · injection h with h1
      exact Or.inr ⟨h1.symm, by simpa using hq⟩
    · cases h
  · rw [if_neg hq] at h
    split at h
    · injection h with h1
      exact Or.inl h1.symm
    · cases h

/-- A successful string/word match advances the cursor and stays at most
one byte past the terminating NUL. -/
theorem strWordTok_ok (isStr : Bool) (input : List Char) (off : Nat)
    (ident : Option Ident) (off2 : Nat) (act : PushAct)
    (hoff : off ≤ input.length)
    (h : strWordTok isStr input off ident = .ok off2 act) :
    off < off2 ∧ off2 ≤ input.length + 1 := by
  simp only [strWordTok] at h
  by_cases hq : (charAt input off == '"') = true
  · rw [if_pos hq] at h
    have hofflt : off < input.length := by
      apply lt_of_charAt_ne_nul
      intro h0
      rw [h0] at hq
      exact absurd hq (by decide)
    have hsp := quotedSplit_spec '"' (input.drop (off + 1))
    have hcl : (quotedSplit '"' (input.drop (off + 1))).1.length ≤
        input.length - (off + 1) := by
      have hle := congrArg List.length hsp.1
      rw [List.length_append, List.length_drop] at hle
      omega
    split at h
    · cases h
    · split at h
      · injection h with h1 h2
        omega
      · injection h with h1 h2
        omega
  · rw [if_neg hq] at h
    have hb := off_takeWhile_bound input off (swStop isStr) hoff
    split at h
    · cases h
    · rename_i hlen
      split at h
      · injection h with h1 h2
        omega
      · injection h with h1 h2
        omega

/-- A failed descriptor attempt leaves the cursor unchanged, except that
a quoted-empty string/word attempt moves it one byte past the opening
quote. -/
theorem tryTok_fail_spec (input : List Char) (off : Nat) (t : CmdpToken)
    (off' : Nat) (h : tryTok input off t = .fail off') :
    off' = off ∨ (off' = off + 1 ∧ charAt input off = '"') := by
  simp only [tryTok] at h
  split at h
  · split at h
    · cases h
    · injection h with h1
      exact Or.inl h1.symm
  · split at h
    · split at h
      · injection h with h1
        exact Or.inl h1.symm
      · split at h
        · injection h with h1
          exact Or.inl h1.symm
        · cases h
    · split at h
      · exact strWordTok_fail _ _ _ _ _ h
      · split at h
        · cases h
        · split at h
          · split at h
            · cases h
            · injection h with h1
              exact Or.inl h1.symm
          · injection h with h1
            exact Or.inl h1.symm

/-- A successful descriptor match advances the cursor and moves it at
most one byte past the terminating NUL. -/
theorem tryTok_ok_spec (input : List Char) (off : Nat) (t : CmdpToken)
    (off2 : Nat) (act : PushAct)
    (hoff : off ≤ input.length)
    (hnul : ¬ nulChar ∈ t.name.toList)
    (hlit : t.name.toList.headD nulChar = apos → 2 ≤ t.name.toList.length)
    (h : tryTok input off t = .ok off2 act) :
    off < off2 ∧ off2 ≤ input.length + 1 := by
  simp only [tryTok] at h
  split at h
  · rename_i hhead
    split at h
    · rename_i hm
      injection h with h1 h2
      have hhd : t.name.toList.headD nulChar = apos := by simpa using hhead
      have hlen2 := hlit hhd
      have hdlen : (t.name.toList.drop 1).length = t.name.toList.length - 1 :=
        List.length_drop 1 _
      have hne : t.name.toList.drop 1 ≠ [] := by
        intro h0
        have h00 := congrArg List.length h0
        rw [hdlen] at h00
        simp only [List.length_nil] at h00
        omega
      have hbound := litMatch_bound input (t.name.toList.drop 1) off hm
        (fun c hc hceq => hnul (by
          rw [← hceq]
          exact List.drop_subset 1 t.name.toList hc)) hne
      have hb1 : 1 ≤ (t.name.toList.drop 1).length := by
        rw [hdlen]
        omega
      omega
    · cases h
  · split at h
    · split at h
      · cases h
      · split at h
        · cases h
        · injection h with h1 h2
          have hle := strtol10_le (input.drop off)
          rw [List.length_drop] at hle
          rename_i hr0 hrange
          omega
    · split at h
      · exact strWordTok_ok _ input off _ off2 act hoff h
      · split at h
        · injection h with h1 h2
          have hb := off_takeWhile_bound input off lineStop hoff
          omega
        · split at h
          · split at h
            · injection h with h1 h2
              omega
            · cases h
          · cases h

/-- An end descriptor matches at NUL, LF or CR and consumes one byte. -/
theorem tryTok_end_ok (input : List Char) (off : Nat) (t : CmdpToken)
    (hname : t.name = "end")
    (hc : charAt input off = nulChar ∨ charAt input off = '\n' ∨
      charAt input off = '\r') :
    tryTok input off t = .ok (off + 1) .nop := by
  unfold tryTok
  rw [hname]
  rw [if_neg (by decide), if_neg (by decide), if_neg (by decide),
    if_neg (by decide), if_pos (by decide)]
  rcases hc with h | h | h <;> rw [h] <;> rw [if_pos (by decide)]

/-- The descriptor loop on a no-match only moves the cursor forward,
and not past the terminating NUL. -/
theorem tryList_nomatch_spec (input : List Char) :
    ∀ (ts : List CmdpToken) (off off2 : Nat),
    off ≤ input.length →
    tryList input off ts = .nomatch off2 →
    off ≤ off2 ∧ off2 ≤ input.length
  | [], off, off2, hoff, h => by
    injection h with h1
    subst h1
    exact ⟨le_refl _, hoff⟩
  | t :: ts, off, off2, hoff, h => by
    simp only [tryList] at h
    rcases htt : tryTok input off t with ⟨o, a⟩ | o
    · rw [htt] at h
      simp at h
    · rw [htt] at h
      simp only at h
      rcases tryTok_fail_spec input off t o htt with h1 | ⟨h1, h2⟩
      · subst h1
        exact tryList_nomatch_spec input ts o off2 hoff h
      · have hlt : off < input.length :=
          lt_of_charAt_ne_nul input off (by rw [h2]; decide)
        have hrec := tryList_nomatch_spec input ts o off2 (by omega) h
        omega

/-- A match found by the descriptor loop advances the cursor, moves it
at most one byte past the terminating NUL, and comes from the list. -/
theorem tryList_matched_spec (input : List Char) :
    ∀ (ts : List CmdpToken) (off : Nat) (tok : CmdpToken) (off2 : Nat)
      (act : PushAct),
    off ≤ input.length →
    (∀ t ∈ ts, ¬ nulChar ∈ t.name.toList) →
    (∀ t ∈ ts, t.name.toList.headD nulChar = apos → 2 ≤ t.name.toList.length) →
    tryList input off ts = .matched tok off2 act →
    off < off2 ∧ off2 ≤ input.length + 1 ∧ tok ∈ ts
  | [], off, tok, off2, act, _, _, _, h => by cases h
  | t :: ts, off, tok, off2, act, hoff, hnul, hlit, h => by
    simp only [tryList] at h
    rcases htt : tryTok input off t with ⟨o, a⟩ | o
    · rw [htt] at h
      simp only [TryListRes.matched.injEq] at h
      obtain ⟨rfl, rfl, rfl⟩ := h
      have := tryTok_ok_spec input off t o a hoff
        (hnul t (List.mem_cons_self _ _)) (hlit t (List.mem_cons_self _ _)) htt
      exact ⟨this.1, this.2, List.mem_cons_self _ _⟩
    · rw [htt] at h
      simp only at h
      rcases tryTok_fail_spec input off t o htt with h1 | ⟨h1, h2⟩
      · subst h1
        have hrec := tryList_matched_spec input ts o tok off2 act hoff
          (fun x hx => hnul x (List.mem_cons_of_mem _ hx))
          (fun x hx => hlit x (List.mem_cons_of_mem _ hx)) h
        exact ⟨hrec.1, hrec.2.1, List.mem_cons_of_mem _ hrec.2.2⟩
      · have hlt : off < input.length :=
          lt_of_charAt_ne_nul input off (by rw [h2]; decide)
        have hrec := tryList_matched_spec input ts o tok off2 act (by omega)
          (fun x hx => hnul x (List.mem_cons_of_mem _ hx))
          (fun x hx => hlit x (List.mem_cons_of_mem _ hx)) h
        exact ⟨by omega, hrec.2.1, List.mem_cons_of_mem _ hrec.2.2⟩

/-- At an LF byte, a token table containing an end descriptor always
yields a match (failed attempts before it cannot move the cursor at an
LF, and the end descriptor itself matches). -/
theorem tryList_end_matches (input : List Char) :
    ∀ (ts : List CmdpToken) (off : Nat),
    charAt input off = '\n' →
    (∃ t, t ∈ ts ∧ t.name = "end") →
    ∃ tok off2 act, tryList input off ts = .matched tok off2 act
  | [], off, _, hend => by
    rcases hend with ⟨t, ht, _⟩
    cases ht
  | t :: ts, off, hnl, hend => by
    rcases htt : tryTok input off t with ⟨o, a⟩ | o
    · exact ⟨t, o, a, by simp [tryList, htt]⟩
    · have ho : o = off := by
        rcases tryTok_fail_spec input off t o htt with h1 | ⟨h1, h2⟩
        · exact h1
        · rw [hnl] at h2
          exact absurd h2 (by decide)
      rw [ho] at htt
      rcases hend with ⟨te, hte, hname⟩
      rcases List.mem_cons.mp hte with rfl | hte2
      · rw [tryTok_end_ok input off te hname (Or.inr (Or.inl hnl))] at htt
        cases htt
      · obtain ⟨tok, off2, act, hh⟩ :=
          tryList_end_matches input ts off hnl ⟨te, hte2, hname⟩
        exact ⟨tok, off2, act, by simp [tryList, htt, hh]⟩

/-- The trail update never disturbs position 0. -/
theorem update_statelist_headD (sl : List Nat) (ns : Nat) (d : Nat)
    (hne : sl ≠ []) :
    (update_statelist sl ns).headD d = sl.headD d := by
  rcases sl with _ | ⟨s0, rest⟩
  · exact absurd rfl hne
  · unfold update_statelist
    rcases hfi : (s0 :: rest).findIdx? (fun s => s = ns) with _ | i
    · simp
    · simp only
      rw [List.take_succ_cons]
      simp

/-- The trail update never empties the trail. -/
theorem update_statelist_ne_nil (sl : List Nat) (ns : Nat) (hne : sl ≠ []) :
    update_statelist sl ns ≠ [] := by
  rcases sl with _ | ⟨s0, rest⟩
  · exact absurd rfl hne
  · unfold update_statelist
    rcases hfi : (s0 :: rest).findIdx? (fun s => s = ns) with _ | i
    · simp
    · simp only
      rw [List.take_succ_cons]
      simp

/-- The transition commits some state and updates the trail with it. -/
theorem next_state_statelist (G : Grammar) (tok : CmdpToken) (ps : PState) :
    ∃ ns, (next_state G tok ps).statelist = update_statelist ps.statelist ns ∧
      (next_state G tok ps).state = ns := by
  rcases htok : tok.next_state with _ | s
  · exact ⟨G.call tok.call_identifier ps.stack,
      by simp [next_state, htok], by simp [next_state, htok]⟩
  · exact ⟨s, by simp [next_state, htok], by simp [next_state, htok]⟩

/-- A descriptor produced by the recovery walk is an error descriptor of
some state of the grammar. -/
theorem recoveryWalk_sound (G : Grammar) (sl : List Nat) (tok : CmdpToken)
    (h : recoveryWalk G sl = some tok) :
    ∃ s, tok ∈ G.tokens s ∧ tok.name = "error" := by
  rw [recoveryWalk] at h
  obtain ⟨s1, _, hfs⟩ := List.exists_of_findSome?_eq_some h
  rw [findErrTok] at hfs
  exact ⟨s1, List.mem_of_find?_eq_some hfs,
    by simpa using List.find?_some hfs⟩

/-- With INITIAL anchored at trail position 0 and an error descriptor in
INITIAL's table, the recovery walk always finds a descriptor. -/
theorem recoveryWalk_some (G : Grammar) (sl : List Nat)
    (hne : sl ≠ []) (hhd : sl.headD 1 = INITIAL)
    (herr : ∃ t, t ∈ G.tokens INITIAL ∧ t.name = "error") :
    recoveryWalk G sl ≠ none := by
  rcases sl with _ | ⟨s0, rest⟩
  · exact absurd rfl hne
  have hs0 : s0 = INITIAL := by simpa using hhd
  intro hnone
  rw [recoveryWalk, List.findSome?_eq_none_iff] at hnone
  obtain ⟨t, htmem, htname⟩ := herr
  have hfind : findErrTok G INITIAL ≠ none := by
    intro hf
    rw [findErrTok, List.find?_eq_none] at hf
    exact (hf t htmem) (by simp [htname])
  have hmem : s0 ∈ (s0 :: rest).reverse := by
    rw [List.mem_reverse]
    exact List.mem_cons_self _ _
  have hz := hnone s0 hmem
  rw [hs0] at hz
  exact hfind hz

/-- The let-free unfolding of one iteration of the main loop. -/
theorem step_eq (G : Grammar) (input : List Char) (cfg : Config) :
    step G input cfg =
      if input.length < cfg.off then .done cfg
      else
        match tryList input (skipWS input cfg.off) (G.tokens cfg.state) with
        | .matched tok off2 act =>
          match applyAct cfg.stack act with
          | none => .fatalStack
          | some st2 =>
            .next ⟨off2,
              (next_state G tok ⟨cfg.state, st2, cfg.statelist⟩).state,
              (next_state G tok ⟨cfg.state, st2, cfg.statelist⟩).stack,
              (next_state G tok ⟨cfg.state, st2, cfg.statelist⟩).statelist⟩
        | .nomatch off2 =>
          match recoveryWalk G cfg.statelist with
          | none => .assertFail
          | some tok =>
            .next ⟨skipToLF input off2,
              (next_state G tok
                ⟨cfg.state, clear_stack cfg.stack, cfg.statelist⟩).state,
              (next_state G tok
                ⟨cfg.state, clear_stack cfg.stack, cfg.statelist⟩).stack,
              (next_state G tok
                ⟨cfg.state, clear_stack cfg.stack, cfg.statelist⟩).statelist⟩ :=
  rfl

/-- A finished iteration returns the configuration unchanged, and only
fires when the cursor has moved past the terminating NUL. -/
theorem step_done_spec (G : Grammar) (input : List Char) (cfg c : Config)
    (h : step G input cfg = .done c) :
    c = cfg ∧ input.length < cfg.off := by
  rw [step_eq] at h
  split at h
  · rename_i hlt
    injection h with h1
    exact ⟨h1.symm, hlt⟩
  · rcases htl : tryList input (skipWS input cfg.off) (G.tokens cfg.state) with
      ⟨tok, o2, a⟩ | o2 <;> rw [htl] at h <;> simp only at h
    · rcases happ : applyAct cfg.stack a with _ | st2 <;> rw [happ] at h <;>
        simp at h
    · rcases hrw : recoveryWalk G cfg.statelist with _ | tok <;>
        rw [hrw] at h <;> simp at h

/-- With the grammar invariants, the recovery assert never fires. -/
theorem step_no_assert (G : Grammar) (input : List Char) (cfg : Config)
    (hg : GoodGrammar G)
    (hne : cfg.statelist ≠ []) (hhd : cfg.statelist.headD 1 = INITIAL) :
    step G input cfg ≠ .assertFail := by
  intro h
  rw [step_eq] at h
  split at h
  · cases h
  · rcases htl : tryList input (skipWS input cfg.off) (G.tokens cfg.state) with
      ⟨tok, o2, a⟩ | o2 <;> rw [htl] at h <;> simp only at h
    · rcases happ : applyAct cfg.stack a with _ | st2 <;> rw [happ] at h <;>
        simp at h
    · rcases hrw : recoveryWalk G cfg.statelist with _ | tok
      · exact recoveryWalk_some G cfg.statelist hne hhd hg.initial_has_err hrw
      · rw [hrw] at h
        simp at h

/-- One continuing iteration preserves the trail anchor and the cursor
bound, and strictly decreases the termination measure. -/
theorem step_next_spec (G : Grammar) (input : List Char) (cfg c' : Config)
    (hg : GoodGrammar G)
    (hne : cfg.statelist ≠ [])
    (hhd : cfg.statelist.headD 1 = INITIAL)
    (h : step G input cfg = .next c') :
    c'.statelist ≠ [] ∧ c'.statelist.headD 1 = INITIAL ∧
    c'.off ≤ input.length + 1 ∧
    2 * (input.length + 1 - c'.off) + (if c'.state = INITIAL then 0 else 1) <
      2 * (input.length + 1 - cfg.off) + (if cfg.state = INITIAL then 0 else 1) := by
  rw [step_eq] at h
  split at h
  · cases h
  rename_i hoffgt
  have hoff : cfg.off ≤ input.length := by omega
  have hws := skipWS_bounds input cfg.off
  have hws2 : skipWS input cfg.off ≤ input.length := hws.2 hoff
  rcases htl : tryList input (skipWS input cfg.off) (G.tokens cfg.state) with
    ⟨tok, off2, a⟩ | off2 <;> rw [htl] at h <;> simp only at h
  · rcases happ : applyAct cfg.stack a with _ | st2 <;> rw [happ] at h <;>
      simp only at h
    · cases h
    · injection h with h1
      subst h1
      have hm := tryList_matched_spec input (G.tokens cfg.state)
        (skipWS input cfg.off) tok off2 a hws2
        (fun t ht => hg.name_no_nul cfg.state t ht)
        (fun t ht => hg.lit_nonempty cfg.state t ht) htl
      obtain ⟨ns, hsl, hst⟩ :=
        next_state_statelist G tok ⟨cfg.state, st2, cfg.statelist⟩
      refine ⟨?_, ?_, ?_, ?_⟩
      · dsimp only
        rw [hsl]
        exact update_statelist_ne_nil _ _ hne
      · dsimp only
        rw [hsl, update_statelist_headD _ _ _ hne]
        exact hhd
      · exact hm.2.1
      · dsimp only
        have hbit1 :
            (if (next_state G tok
                ⟨cfg.state, st2, cfg.statelist⟩).state = INITIAL
             then (0 : Nat) else 1) ≤ 1 := by
          split <;> omega
        have h1 := hm.1
        have h2 := hm.2.1
        have h3 := hws.1
        omega
  · rcases hrw : recoveryWalk G cfg.statelist with _ | tok <;> rw [hrw] at h <;>
      simp only at h
    · cases h
    · injection h with h1
      subst h1
      have hnm := tryList_nomatch_spec input (G.tokens cfg.state)
        (skipWS input cfg.off) off2 hws2 htl
      have hlf := skipToLF_bounds input off2 hnm.2
      obtain ⟨ns, hsl, hst⟩ := next_state_statelist G tok
        ⟨cfg.state, clear_stack cfg.stack, cfg.statelist⟩
      refine ⟨?_, ?_, ?_, ?_⟩
      · dsimp only
        rw [hsl]
        exact update_statelist_ne_nil _ _ hne
      · dsimp only
        rw [hsl, update_statelist_headD _ _ _ hne]
        exact hhd
      · exact hlf.2
      · dsimp only
        by_cases hadv : cfg.off < skipToLF input off2
        · have hbit1 :
              (if (next_state G tok
                  ⟨cfg.state, clear_stack cfg.stack, cfg.statelist⟩).state =
                  INITIAL
               then (0 : Nat) else 1) ≤ 1 := by
            split <;> omega
          have h1 := hlf.2
          omega
        · have heq1 : skipToLF input off2 = cfg.off := by
            have h1 := hlf.1
            have h2 := hnm.1
            have h3 := hws.1
            omega
          have heq2 : off2 = cfg.off := by
            have h1 := hlf.1
            have h2 := hnm.1
            have h3 := hws.1
            omega
          have heq3 : skipWS input cfg.off = cfg.off := by
            have h2 := hnm.1
            have h3 := hws.1
            omega
          have hnl : charAt input off2 = '\n' :=
            skipToLF_stuck input off2 hnm.2 (by omega)
          have hsne : ¬ cfg.state = INITIAL := by
            intro h0
            obtain ⟨tk, o3, a3, hmm⟩ := tryList_end_matches input
              (G.tokens INITIAL) (skipWS input cfg.off)
              (by rw [heq3, ← heq2]; exact hnl) hg.initial_has_end
            rw [h0] at htl
            rw [htl] at hmm
            cases hmm
          obtain ⟨s1, hmem, hname⟩ := recoveryWalk_sound G cfg.statelist tok hrw
          have htokns := hg.err_to_initial s1 tok hmem hname
          have hst0 : (next_state G tok
              ⟨cfg.state, clear_stack cfg.stack, cfg.statelist⟩).state =
              INITIAL := by
            simp [next_state, htokns]
          rw [hst0, heq1, if_pos rfl, if_neg hsne]
          omega

/-- The main loop halts: from any configuration whose trail is anchored
at INITIAL, within fuel bounded by the remaining input the loop reaches
an outcome, the recovery assert never fires, and a finished parse stops
with the cursor exactly one byte past the terminating NUL. -/
theorem run_terminates (G : Grammar) (input : List Char) (hg : GoodGrammar G) :
    ∀ (fuel : Nat) (cfg : Config),
    cfg.statelist ≠ [] → cfg.statelist.headD 1 = INITIAL →
    cfg.off ≤ input.length + 1 →
    2 * (input.length + 1 - cfg.off) +
      (if cfg.state = INITIAL then 0 else 1) < fuel →
    ∃ out, run G input fuel cfg = some out ∧ out ≠ .assertFail ∧
      (∀ c, out = .finished c → c.off = input.length + 1)
  | 0, cfg, _, _, _, hf => by omega
  | fuel + 1, cfg, hne, hhd, hoffb, hf => by
    rcases hs : step G input cfg with c' | c | _ | _
    · obtain ⟨hne', hhd', hoffb', hm⟩ :=
        step_next_spec G input cfg c' hg hne hhd hs
      obtain ⟨out, hrun, hout⟩ :=
        run_terminates G input hg fuel c' hne' hhd' hoffb' (by omega)
      exact ⟨out, by simp [run, hs, hrun], hout⟩
    · obtain ⟨rfl, hlt⟩ := step_done_spec G input cfg c hs
      refine ⟨.finished c, by simp [run, hs], by simp, ?_⟩
      intro c2 hc2
      injection hc2 with h1
      subst h1
      omega
    · exact ⟨.fatalStack, by simp [run, hs], by simp, fun c hc => by cases hc⟩
    · exact absurd hs (step_no_assert G input cfg hg hne hhd)

/-- C7: with the generated grammar's invariants, for every input the
main loop runs over the logical positions 0..len only (the loop guard
is walk - input <= len, so the trailing NUL at position len is a
legitimate position), it terminates — the recovery assert never aborts
the parse on malformed input — and when it finishes normally the cursor
has consumed the entire input, stopping at exactly len+1; in
particular an end descriptor still matches at the NUL for input without
a trailing newline, consuming one byte. -/
theorem c7_termination (G : Grammar) (input : List Char) (hg : GoodGrammar G) :
    (∃ out, run G input (2 * (input.length + 1) + 2) initConfig = some out ∧
      out ≠ .assertFail ∧
      (∀ c, out = .finished c → c.off = input.length + 1)) ∧
    (∀ t : CmdpToken, t.name = "end" →
      tryTok input input.length t = .ok (input.length + 1) .nop) := by
  constructor
  · apply run_terminates G input hg
    · simp [initConfig]
    · simp [initConfig]
    · simp [initConfig]
    · simp [initConfig]
  · intro t hname
    apply tryTok_end_ok input input.length t hname
    left
    rw [charAt, List.getD_eq_getElem?_getD, List.getElem?_eq_none (le_refl _)]
    rfl

/-- The witness grammar satisfies the grammar invariants. -/
theorem witGrammar_good : GoodGrammar witGrammar := by
  refine ⟨?_, ?_, ?_, ?_, ?_⟩
  · intro s t ht
    simp only [witGrammar] at ht
    split at ht
    · rcases List.mem_cons.mp ht with rfl | ht2
      · decide
      · rcases List.mem_cons.mp ht2 with rfl | ht3
        · decide
        · cases ht3
    · cases ht
  · intro s t ht
    simp only [witGrammar] at ht
    split at ht
    · rcases List.mem_cons.mp ht with rfl | ht2
      · decide
      · rcases List.mem_cons.mp ht2 with rfl | ht3
        · decide
        · cases ht3
    · cases ht
  · intro s t ht
    simp only [witGrammar] at ht
    split at ht
    · rcases List.mem_cons.mp ht with rfl | ht2
      · decide
      · rcases List.mem_cons.mp ht2 with rfl | ht3
        · decide
        · cases ht3
    · cases ht
  · exact ⟨⟨"end", none, some 0, 0⟩, by simp [witGrammar], rfl⟩
  · exact ⟨⟨"error", none, some 0, 0⟩, by simp [witGrammar], rfl⟩

/-- Witness for C7 on a concrete one-byte input with the witness
grammar. -/
theorem c7_termination_witness :
    (∃ out, run witGrammar ['x']
        (2 * ((['x'] : List Char).length + 1) + 2) initConfig = some out ∧
      out ≠ .assertFail ∧
      (∀ c, out = .finished c → c.off = (['x'] : List Char).length + 1)) ∧
    (∀ t : CmdpToken, t.name = "end" →
      tryTok ['x'] (['x'] : List Char).length t =
        .ok ((['x'] : List Char).length + 1) .nop) :=
  c7_termination witGrammar ['x'] witGrammar_good
